import Mathlib

/-!
Shallow embedding of the navigation subsystem of the Permafrost Engine
(src/navigation/nav.c and src/navigation/nav_data.h), together with
theorems settling the specification claims about it.

Machine integers are modelled as Nat (all quantities involved are small
and nonnegative; no overflow is reachable in the embedded fragments).
The per-chunk cost field is a total function Nat -> Nat -> Nat; cells
outside the 64x64 range are never written by the code and are given the
fixed default 0 by the embedding.
-/

namespace Nav

/-! ## Constants from nav_data.h -/

def MAX_PORTALS_PER_CHUNK : Nat := 64
def FIELD_RES_R : Nat := 64
def FIELD_RES_C : Nat := 64
def COST_IMPASSABLE : Nat := 0xff

/-! ## Tile data (map/public/tile.h, consumed via map_asset_load.c) -/

/-- Modelled from the spec: the tile structure itself lives in
map/public/tile.h, which is not part of the sources here; the spec
describes it as exposing a pathability flag, a terrain-shape type
(an enum listing flat first, then ramp variants, then corner variants)
and an integer ramp height.  The enum is modelled numerically; C gives
the first enumerator the value 0, so TILETYPE_FLAT is 0. -/
structure Tile where
  type : Nat
  ramp_height : Int
  pathable : Bool
deriving DecidableEq

/-- Modelled from the spec: first enumerator of the tiletype enum. -/
def TILETYPE_FLAT : Nat := 0

/-- C logical negation on an integer: `!x` is 1 when x = 0 and 0 otherwise. -/
def cNot (x : Nat) : Nat := if x = 0 then 1 else 0

/-- nav.c n_tile_pathable.  The second test is embedded with C operator
precedence, where the source expression `!tile->type == TILETYPE_FLAT`
parses as `(!tile->type) == TILETYPE_FLAT`. -/
def n_tile_pathable (tile : Tile) : Bool :=
  if ¬ tile.pathable then false
  else if cNot tile.type = TILETYPE_FLAT ∧ tile.ramp_height > 1 then false
  else true

/-! ## Cost field builder (nav.c n_set_cost_for_tile) -/

def Grid : Type := Nat → Nat → Nat

/-- A single store `chunk->cost_base[r][c] = v`. -/
def gridSet (g : Grid) (r c v : Nat) : Grid :=
  fun x y => if x = r ∧ y = c then v else g x y

/-- nav.c n_set_cost_for_tile: writes one tile's block of cost cells. -/
def n_set_cost_for_tile (chunk_w chunk_h tile_r tile_c : Nat) (tile : Tile)
    (g : Grid) : Grid :=
  let fpr := FIELD_RES_R / chunk_h
  let fpc := FIELD_RES_C / chunk_w
  let cost := if n_tile_pathable tile then 1 else COST_IMPASSABLE
  (List.range fpr).foldl
    (fun g r =>
      (List.range fpc).foldl
        (fun g c => gridSet g (tile_r * fpr + r) (tile_c * fpc + c) cost) g)
    g

/-- The per-chunk tile loop of N_BuildForMapData: rasterize all
chunk_h x chunk_w tiles of one chunk (tiles indexed row-major as in the
source, `tile_r * chunk_w + tile_c`).  The malloc-fresh cost field is
modelled as the all-zero grid; every in-range cell is overwritten. -/
def buildChunkCost (chunk_w chunk_h : Nat) (tl : Nat → Tile) : Grid :=
  (List.range chunk_h).foldl
    (fun g tile_r =>
      (List.range chunk_w).foldl
        (fun g tile_c =>
          n_set_cost_for_tile chunk_w chunk_h tile_r tile_c
            (tl (tile_r * chunk_w + tile_c)) g) g)
    (fun _ _ => 0)

/-! ### Characterisation of the block write -/

theorem foldl_gridSet_row (g : Grid) (R cb v m x y : Nat) :
    ((List.range m).foldl (fun g c => gridSet g R (cb + c) v) g) x y
      = if x = R ∧ cb ≤ y ∧ y < cb + m then v else g x y := by
  induction m generalizing g with
  | zero =>
    rw [List.range_zero]
    simp only [List.foldl_nil]
    rw [if_neg]
    rintro ⟨_, h1, h2⟩; omega
  | succ m ih =>
    rw [List.range_succ, List.foldl_append]
    simp only [List.foldl_cons, List.foldl_nil, gridSet, ih]
    by_cases hnew : x = R ∧ y = cb + m
    · rw [if_pos hnew, if_pos ⟨hnew.1, by omega, by omega⟩]
    · rw [if_neg hnew]
      by_cases hold : x = R ∧ cb ≤ y ∧ y < cb + m
      · rw [if_pos hold, if_pos ⟨hold.1, by omega, by omega⟩]
      · rw [if_neg hold, if_neg]
        rintro ⟨h1, h2, h3⟩
        by_cases hy : y = cb + m
        · exact hnew ⟨h1, hy⟩
        · exact hold ⟨h1, h2, by omega⟩

theorem n_set_cost_in_block (chunk_w chunk_h tile_r tile_c : Nat) (tile : Tile)
    (g : Grid) (r c : Nat)
    (hr : r < FIELD_RES_R / chunk_h) (hc : c < FIELD_RES_C / chunk_w) :
    n_set_cost_for_tile chunk_w chunk_h tile_r tile_c tile g
        (tile_r * (FIELD_RES_R / chunk_h) + r) (tile_c * (FIELD_RES_C / chunk_w) + c)
      = if n_tile_pathable tile then 1 else COST_IMPASSABLE := by
  unfold n_set_cost_for_tile
  set fpr := FIELD_RES_R / chunk_h with hfpr
  set fpc := FIELD_RES_C / chunk_w with hfpc
  set v := if n_tile_pathable tile then 1 else COST_IMPASSABLE with hv
  -- characterise the nested fold row by row
  have hrow : ∀ (g : Grid) (x y : Nat) (m : Nat),
      ((List.range m).foldl
        (fun g rr =>
          (List.range fpc).foldl
            (fun g cc => gridSet g (tile_r * fpr + rr) (tile_c * fpc + cc) v) g) g) x y
      = if (∃ rr, rr < m ∧ x = tile_r * fpr + rr) ∧
            tile_c * fpc ≤ y ∧ y < tile_c * fpc + fpc then v else g x y := by
    intro g x y m
    induction m generalizing g with
    | zero =>
      rw [List.range_zero]
      simp only [List.foldl_nil]
      rw [if_neg]
      rintro ⟨⟨rr, hrr, _⟩, _⟩; omega
    | succ m ih =>
      rw [List.range_succ, List.foldl_append]
      simp only [List.foldl_cons, List.foldl_nil, foldl_gridSet_row, ih]
      by_cases hlast : x = tile_r * fpr + m ∧ tile_c * fpc ≤ y ∧ y < tile_c * fpc + fpc
      · have : (∃ rr, rr < m + 1 ∧ x = tile_r * fpr + rr) ∧
            tile_c * fpc ≤ y ∧ y < tile_c * fpc + fpc := ⟨⟨m, by omega, hlast.1⟩, hlast.2⟩
        simp only [if_pos hlast, if_pos this]
      · rw [if_neg hlast]
        by_cases hprev : (∃ rr, rr < m ∧ x = tile_r * fpr + rr) ∧
            tile_c * fpc ≤ y ∧ y < tile_c * fpc + fpc
        · have : (∃ rr, rr < m + 1 ∧ x = tile_r * fpr + rr) ∧
              tile_c * fpc ≤ y ∧ y < tile_c * fpc + fpc :=
            ⟨⟨hprev.1.choose, by have := hprev.1.choose_spec; omega,
              hprev.1.choose_spec.2⟩, hprev.2⟩
          simp only [if_pos hprev, if_pos this]
        · have : ¬ ((∃ rr, rr < m + 1 ∧ x = tile_r * fpr + rr) ∧
              tile_c * fpc ≤ y ∧ y < tile_c * fpc + fpc) := by
            rintro ⟨⟨rr, hrr, hx⟩, hy⟩
            rcases Nat.lt_succ_iff_lt_or_eq.mp hrr with h | h
            · exact hprev ⟨⟨rr, h, hx⟩, hy⟩
            · exact hlast ⟨by rw [hx, h], hy⟩
          simp only [if_neg hprev, if_neg this]
  rw [hrow]
  rw [if_pos]
  refine ⟨⟨r, hr, rfl⟩, ?_, ?_⟩ <;> omega

theorem n_tile_pathable_iff (tile : Tile) :
    n_tile_pathable tile = true ↔
      tile.pathable ∧ ¬ (tile.type ≠ TILETYPE_FLAT ∧ tile.ramp_height > 1) := by
  unfold n_tile_pathable cNot TILETYPE_FLAT
  by_cases hp : tile.pathable <;> by_cases ht : tile.type = 0 <;>
    by_cases hh : tile.ramp_height > 1 <;> simp [hp, ht, hh]

/-- Claim C1: for every tile passed to the cost field builder, every cost
cell of that tile's block is set to COST_IMPASSABLE when the tile is not
pathable, or when its type is not TILETYPE_FLAT and its ramp height
exceeds 1; otherwise every cell of the block is set to 1. -/
theorem C1_cost_block_uniform (chunk_w chunk_h tile_r tile_c : Nat) (tile : Tile)
    (g : Grid) (r c : Nat)
    (hr : r < FIELD_RES_R / chunk_h) (hc : c < FIELD_RES_C / chunk_w) :
    n_set_cost_for_tile chunk_w chunk_h tile_r tile_c tile g
        (tile_r * (FIELD_RES_R / chunk_h) + r) (tile_c * (FIELD_RES_C / chunk_w) + c)
      = if ¬ tile.pathable ∨ (tile.type ≠ TILETYPE_FLAT ∧ tile.ramp_height > 1)
        then COST_IMPASSABLE else 1 := by
  rw [n_set_cost_in_block chunk_w chunk_h tile_r tile_c tile g r c hr hc]
  rcases Classical.em (¬ tile.pathable ∨ (tile.type ≠ TILETYPE_FLAT ∧ tile.ramp_height > 1))
    with h | h
  · have hnp : ¬ (n_tile_pathable tile = true) := by rw [n_tile_pathable_iff]; tauto
    rw [if_neg hnp, if_pos h]
  · have hp : n_tile_pathable tile = true := by rw [n_tile_pathable_iff]; tauto
    rw [if_pos hp, if_neg h]

theorem C1_cost_block_uniform_witness :
    (0 < FIELD_RES_R / 8 ∧ 0 < FIELD_RES_C / 8) ∧
    n_set_cost_for_tile 8 8 2 3 ⟨1, 2, true⟩ (fun _ _ => 0)
        (2 * (FIELD_RES_R / 8) + 0) (3 * (FIELD_RES_C / 8) + 0)
      = COST_IMPASSABLE :=
  ⟨⟨by decide, by decide⟩, by
    rw [C1_cost_block_uniform 8 8 2 3 ⟨1, 2, true⟩ (fun _ _ => 0) 0 0
      (by decide) (by decide)]
    decide⟩

/-! ## Portal discovery (nav.c n_link_chunks / n_create_portals) -/

/-- struct coord of nav_data.h (all values reached here are nonnegative). -/
structure Coord where
  r : Nat
  c : Nat
deriving DecidableEq

instance : Inhabited Coord := ⟨⟨0, 0⟩⟩

/-- struct portal of nav_data.h.  The C field `connected` is a pointer
`&other_chunk->portals[idx]`; it is embedded as the pair of the other
chunk's coordinate and the index idx into its portal array.  The edge
list filled in by the later linker phase is kept separately (see
n_link_chunk_portals below). -/
structure Portal where
  chunk : Coord
  ep0 : Coord
  ep1 : Coord
  connected : Coord × Nat
deriving DecidableEq

instance : Inhabited Portal := ⟨⟨default, default, default, (default, 0)⟩⟩

inductive EdgeType where
  | bot
  | left
  | right
  | top
deriving DecidableEq

def edgeIsHoriz : EdgeType → Bool
  | .bot => true
  | .top => true
  | _ => false

/-- The fixed boundary row/column index for an edge
(a_fixed_idx / b_fixed_idx in n_link_chunks). -/
def fixedIdx : EdgeType → Nat
  | .top => 0
  | .bot => FIELD_RES_R - 1
  | .left => 0
  | .right => FIELD_RES_C - 1

/-- The cost-grid cell at position i along an edge.  For top/bottom
edges the cursor walks a row with stride 1; for left/right edges it
walks a column with stride FIELD_RES_C.  The same row/column pair is
also used for the portal endpoints in the source. -/
def mkCoord (et : EdgeType) (i : Nat) : Coord :=
  if edgeIsHoriz et then ⟨fixedIdx et, i⟩ else ⟨i, fixedIdx et⟩

def lineCost (g : Grid) (et : EdgeType) (i : Nat) : Nat :=
  g (mkCoord et i).r (mkCoord et i).c

/-- `can_cross` of n_link_chunks at position i of the shared edge. -/
def crossAt (aG bG : Grid) (aT bT : EdgeType) (i : Nat) : Bool :=
  (lineCost aG aT i != COST_IMPASSABLE) && (lineCost bG bT i != COST_IMPASSABLE)

/-- Loop state of n_link_chunks: the two portal arrays (the list holds
the first num_portals fully recorded entries) and the in-portal flag.
When a portal has been opened but not yet closed, `pend` holds the index
at which it was opened; its record sits in the slot past the end of the
array and only becomes visible once num_portals is incremented at close. -/
structure LinkSt where
  aPs : List Portal
  bPs : List Portal
  pend : Option Nat
deriving DecidableEq

/-- Closing a portal pair: endpoints[1] is written and both chunks'
num_portals are incremented, making the records opened at run start
index i0 visible.  The `connected` cross-references were captured at
open time as the then-current num_portals of the other chunk; no portal
is recorded between open and close, so the lengths at close equal the
lengths at open. -/
def closePortal (aT bT : EdgeType) (aC bC : Coord) (st : LinkSt) (i0 idx : Nat) :
    LinkSt :=
  { aPs := st.aPs ++ [{ chunk := aC, ep0 := mkCoord aT i0, ep1 := mkCoord aT idx,
                        connected := (bC, st.bPs.length) }],
    bPs := st.bPs ++ [{ chunk := bC, ep0 := mkCoord bT i0, ep1 := mkCoord bT idx,
                        connected := (aC, st.aPs.length) }],
    pend := none }

/-- One iteration of the scan loop of n_link_chunks at position i.
Mirrors the source exactly: an opening branch taken when the position is
crossable and no portal is open, else a closing branch taken when a
portal is open and the position is not crossable or is the last one. -/
def linkStep (aG bG : Grid) (aT bT : EdgeType) (aC bC : Coord) (n : Nat)
    (st : LinkSt) (i : Nat) : LinkSt :=
  match st.pend with
  | none => if crossAt aG bG aT bT i then { st with pend := some i } else st
  | some i0 =>
    if crossAt aG bG aT bT i then
      if i = n - 1 then closePortal aT bT aC bC st i0 i else st
    else
      closePortal aT bT aC bC st i0 (i - 1)

def linkScan (aG bG : Grid) (aT bT : EdgeType) (aC bC : Coord) (n m : Nat)
    (st : LinkSt) : LinkSt :=
  (List.range m).foldl (linkStep aG bG aT bT aC bC n) st

/-- nav.c n_link_chunks: scans the shared edge of chunks a and b and
returns their updated portal arrays. -/
def n_link_chunks (aG : Grid) (aT : EdgeType) (aC : Coord) (aPs : List Portal)
    (bG : Grid) (bT : EdgeType) (bC : Coord) (bPs : List Portal) :
    List Portal × List Portal :=
  let n := if edgeIsHoriz aT then FIELD_RES_C else FIELD_RES_R
  let fin := linkScan aG bG aT bT aC bC n n ⟨aPs, bPs, none⟩
  (fin.aPs, fin.bPs)

/-- The per-chunk portal arrays, indexed by chunk coordinate. -/
def PortalMap : Type := Coord → List Portal

/-- One chunk-to-neighbour link performed by n_create_portals. -/
structure LinkSpec where
  a : Coord
  aT : EdgeType
  b : Coord
  bT : EdgeType
deriving DecidableEq

/-- The links processed by the double loop of n_create_portals, in
source order: for each chunk row-major, first the bottom neighbour
(when one exists), then the right neighbour (when one exists). -/
def linkSpecs (w h : Nat) : List LinkSpec :=
  (List.range h).flatMap (fun r =>
    (List.range w).flatMap (fun c =>
      (if r < h - 1 then [⟨⟨r, c⟩, .bot, ⟨r + 1, c⟩, .top⟩] else []) ++
      (if c < w - 1 then [⟨⟨r, c⟩, .right, ⟨r, c + 1⟩, .left⟩] else [])))

/-- Execute one n_link_chunks call on the portal map. -/
def applyLink (cost : Coord → Grid) (pm : PortalMap) (ls : LinkSpec) : PortalMap :=
  let res := n_link_chunks (cost ls.a) ls.aT ls.a (pm ls.a)
                           (cost ls.b) ls.bT ls.b (pm ls.b)
  fun rc => if rc = ls.a then res.1 else if rc = ls.b then res.2 else pm rc

/-- nav.c n_create_portals: every chunk starts with num_portals = 0
(reset in N_BuildForMapData) and the links are processed in source
order. -/
def n_create_portals (w h : Nat) (cost : Coord → Grid) : PortalMap :=
  (linkSpecs w h).foldl (applyLink cost) (fun _ => [])

/-- The length of the scanned edge line (line_len in n_link_chunks). -/
def lineLen (aT : EdgeType) : Nat := if edgeIsHoriz aT then FIELD_RES_C else FIELD_RES_R

/-! ### Invariant of the edge scan -/

/-- Shape of the k-th portal pair recorded by one n_link_chunks call whose
chunks started with a0 and b0 portals: mutually cross-referenced records
whose endpoints span a run of crossable positions along the edge. -/
def PairOK (aG bG : Grid) (aT bT : EdgeType) (aC bC : Coord) (n a0 b0 k : Nat)
    (pa pb : Portal) : Prop :=
  ∃ i0 i1, i0 ≤ i1 ∧ i1 < n ∧
    pa = { chunk := aC, ep0 := mkCoord aT i0, ep1 := mkCoord aT i1,
           connected := (bC, b0 + k) } ∧
    pb = { chunk := bC, ep0 := mkCoord bT i0, ep1 := mkCoord bT i1,
           connected := (aC, a0 + k) } ∧
    ∀ j, i0 ≤ j → j ≤ i1 → crossAt aG bG aT bT j = true

/-- State invariant of the scan loop after the first m positions. -/
def ScanInv (aG bG : Grid) (aT bT : EdgeType) (aC bC : Coord) (n : Nat)
    (aPs0 bPs0 : List Portal) (m : Nat) (st : LinkSt) : Prop :=
  ∃ La Lb, st.aPs = aPs0 ++ La ∧ st.bPs = bPs0 ++ Lb ∧ La.length = Lb.length ∧
    2 * La.length + (if st.pend = none then 0 else 1) ≤ m ∧
    (∀ k, k < La.length →
      PairOK aG bG aT bT aC bC n aPs0.length bPs0.length k
        (La.getD k default) (Lb.getD k default)) ∧
    (∀ i0, st.pend = some i0 →
      i0 < m ∧ ∀ j, i0 ≤ j → j < m → crossAt aG bG aT bT j = true)

theorem linkStep_none (aG bG : Grid) (aT bT : EdgeType) (aC bC : Coord) (n : Nat)
    (st : LinkSt) (i : Nat) (h : st.pend = none) :
    linkStep aG bG aT bT aC bC n st i
      = if crossAt aG bG aT bT i then { st with pend := some i } else st := by
  unfold linkStep
  rw [h]

theorem linkStep_some (aG bG : Grid) (aT bT : EdgeType) (aC bC : Coord) (n : Nat)
    (st : LinkSt) (i i0 : Nat) (h : st.pend = some i0) :
    linkStep aG bG aT bT aC bC n st i
      = if crossAt aG bG aT bT i then
          (if i = n - 1 then closePortal aT bT aC bC st i0 i else st)
        else closePortal aT bT aC bC st i0 (i - 1) := by
  unfold linkStep
  rw [h]

theorem scanInv_step (aG bG : Grid) (aT bT : EdgeType) (aC bC : Coord) (n : Nat)
    (aPs0 bPs0 : List Portal) (m : Nat) (hm : m < n) (st : LinkSt)
    (h : ScanInv aG bG aT bT aC bC n aPs0 bPs0 m st) :
    ScanInv aG bG aT bT aC bC n aPs0 bPs0 (m + 1)
      (linkStep aG bG aT bT aC bC n st m) := by
  obtain ⟨La, Lb, hA, hB, hlen, hcount, hpairs, hpend⟩ := h
  cases hp : st.pend with
  | none =>
    rw [hp] at hcount
    simp only [if_pos rfl] at hcount
    rw [linkStep_none aG bG aT bT aC bC n st m hp]
    by_cases hc : crossAt aG bG aT bT m
    · rw [if_pos hc]
      refine ⟨La, Lb, hA, hB, hlen, ?_, hpairs, ?_⟩
      · simp only []
        rw [if_neg (by simp)]
        omega
      · intro i0 hi0
        simp only [Option.some.injEq] at hi0
        subst hi0
        exact ⟨by omega, fun j hj1 hj2 => by
          have : j = m := by omega
          rwa [this]⟩
    · rw [if_neg hc]
      refine ⟨La, Lb, hA, hB, hlen, ?_, hpairs, ?_⟩
      · rw [hp, if_pos rfl]; omega
      · intro i0 hi0; rw [hp] at hi0; exact absurd hi0 (by simp)
  | some i0 =>
    obtain ⟨hi0m, hcross⟩ := hpend i0 hp
    rw [hp] at hcount
    rw [if_neg (by simp)] at hcount
    rw [linkStep_some aG bG aT bT aC bC n st m i0 hp]
    have halen : st.aPs.length = aPs0.length + La.length := by
      rw [hA, List.length_append]
    have hblen : st.bPs.length = bPs0.length + La.length := by
      rw [hB, List.length_append, hlen]
    have hclose : ∀ idx, i0 ≤ idx → idx < n →
        (∀ j, i0 ≤ j → j ≤ idx → crossAt aG bG aT bT j = true) →
        ScanInv aG bG aT bT aC bC n aPs0 bPs0 (m + 1)
          (closePortal aT bT aC bC st i0 idx) := by
      intro idx hidx hidxn hcr
      refine ⟨La ++ [{ chunk := aC, ep0 := mkCoord aT i0, ep1 := mkCoord aT idx,
                       connected := (bC, st.bPs.length) }],
              Lb ++ [{ chunk := bC, ep0 := mkCoord bT i0, ep1 := mkCoord bT idx,
                       connected := (aC, st.aPs.length) }], ?_, ?_, ?_, ?_, ?_, ?_⟩
      · show st.aPs ++ _ = aPs0 ++ (La ++ _)
        rw [hA, List.append_assoc]
      · show st.bPs ++ _ = bPs0 ++ (Lb ++ _)
        rw [hB, List.append_assoc]
      · rw [List.length_append, List.length_append, hlen]
        rfl
      · show 2 * (La ++ _).length + (if (none : Option Nat) = none then 0 else 1) ≤ m + 1
        rw [if_pos rfl, List.length_append]
        simp only [List.length_singleton]
        omega
      · intro k hk
        rw [List.length_append, List.length_singleton] at hk
        by_cases hk2 : k < La.length
        · rw [List.getD_append _ _ _ _ hk2, List.getD_append _ _ _ _ (by omega)]
          exact hpairs k hk2
        · have hkeq : k = La.length := by omega
          subst hkeq
          rw [List.getD_append_right _ _ _ _ (by omega),
              List.getD_append_right _ _ _ _ (by omega)]
          rw [Nat.sub_self, show La.length - Lb.length = 0 from by omega]
          simp only [List.getD_cons_zero]
          refine ⟨i0, idx, hidx, hidxn, ?_, ?_, hcr⟩
          · rw [hblen]
          · rw [halen]
      · intro j hj
        exact absurd hj (by simp [closePortal])
    by_cases hc : crossAt aG bG aT bT m
    · rw [if_pos hc]
      by_cases hl : m = n - 1
      · rw [if_pos hl]
        exact hclose m (by omega) hm (fun j hj1 hj2 => by
          rcases Nat.lt_or_ge j m with h | h
          · exact hcross j hj1 h
          · have : j = m := by omega
            rwa [this])
      · rw [if_neg hl]
        refine ⟨La, Lb, hA, hB, hlen, ?_, hpairs, ?_⟩
        · rw [hp, if_neg (by simp)]
          omega
        · intro i1 hi1
          rw [hp] at hi1
          simp only [Option.some.injEq] at hi1
          subst hi1
          refine ⟨by omega, fun j hj1 hj2 => ?_⟩
          rcases Nat.lt_or_ge j m with h | h
          · exact hcross j hj1 h
          · have : j = m := by omega
            rwa [this]
    · rw [if_neg hc]
      exact hclose (m - 1) (by omega) (by omega) (fun j hj1 hj2 =>
        hcross j hj1 (by omega))

theorem scanInv_holds (aG bG : Grid) (aT bT : EdgeType) (aC bC : Coord) (n : Nat)
    (aPs0 bPs0 : List Portal) (m : Nat) (hm : m ≤ n) :
    ScanInv aG bG aT bT aC bC n aPs0 bPs0 m
      (linkScan aG bG aT bT aC bC n m ⟨aPs0, bPs0, none⟩) := by
  induction m with
  | zero =>
    refine ⟨[], [], by simp [linkScan], by simp [linkScan], rfl, ?_, ?_, ?_⟩
    · simp [linkScan]
    · intro k hk; exact absurd hk (by simp)
    · intro i0 hi0
      simp only [linkScan, List.range_zero, List.foldl_nil] at hi0
      exact absurd hi0 (by simp)
  | succ m ih =>
    have hstep := scanInv_step aG bG aT bT aC bC n aPs0 bPs0 m (by omega)
      (linkScan aG bG aT bT aC bC n m ⟨aPs0, bPs0, none⟩) (ih (by omega))
    have : linkScan aG bG aT bT aC bC n (m + 1) ⟨aPs0, bPs0, none⟩
        = linkStep aG bG aT bT aC bC n
            (linkScan aG bG aT bT aC bC n m ⟨aPs0, bPs0, none⟩) m := by
      unfold linkScan
      rw [List.range_succ, List.foldl_append, List.foldl_cons, List.foldl_nil]
    rwa [this]

/-- Summary of one n_link_chunks call: it appends equal-length lists of
mutually paired portals, at most 32 to each side. -/
theorem n_link_chunks_spec (aG : Grid) (aT : EdgeType) (aC : Coord) (aPs : List Portal)
    (bG : Grid) (bT : EdgeType) (bC : Coord) (bPs : List Portal) :
    ∃ La Lb,
      (n_link_chunks aG aT aC aPs bG bT bC bPs).1 = aPs ++ La ∧
      (n_link_chunks aG aT aC aPs bG bT bC bPs).2 = bPs ++ Lb ∧
      La.length = Lb.length ∧ La.length ≤ 32 ∧
      ∀ k, k < La.length →
        PairOK aG bG aT bT aC bC (lineLen aT) aPs.length bPs.length k
          (La.getD k default) (Lb.getD k default) := by
  have h := scanInv_holds aG bG aT bT aC bC (lineLen aT) aPs bPs (lineLen aT)
    (Nat.le_refl _)
  obtain ⟨La, Lb, hA, hB, hlen, hcount, hpairs, hpend⟩ := h
  refine ⟨La, Lb, ?_, ?_, hlen, ?_, hpairs⟩
  · exact hA
  · exact hB
  · have hn : lineLen aT = 64 := by
      unfold lineLen FIELD_RES_C FIELD_RES_R
      split <;> rfl
    rw [hn] at hcount
    omega

/-! ### Claim C4: endpoint alignment of recorded portals -/

/-- Claim C4: every portal recorded by the portal discovery scan lies on
the scanned chunk-boundary edge: both endpoints carry the boundary
row/column as their fixed coordinate (the same row for top/bottom edges,
the same column for left/right edges, never a diagonal run), the varying
coordinate of endpoints[1] is at least that of endpoints[0], and every
position between the two endpoints is crossable. -/
theorem C4_portal_endpoints_aligned (aG : Grid) (aT : EdgeType) (aC : Coord)
    (aPs : List Portal) (bG : Grid) (bT : EdgeType) (bC : Coord) (bPs : List Portal)
    (p : Portal) (hp : p ∈ (n_link_chunks aG aT aC aPs bG bT bC bPs).1) :
    p ∈ aPs ∨
    ∃ i0 i1, i0 ≤ i1 ∧ i1 < lineLen aT ∧
      p.ep0 = mkCoord aT i0 ∧ p.ep1 = mkCoord aT i1 ∧
      (edgeIsHoriz aT = true →
        p.ep0.r = fixedIdx aT ∧ p.ep1.r = fixedIdx aT ∧ p.ep0.c = i0 ∧ p.ep1.c = i1) ∧
      (edgeIsHoriz aT = false →
        p.ep0.c = fixedIdx aT ∧ p.ep1.c = fixedIdx aT ∧ p.ep0.r = i0 ∧ p.ep1.r = i1) ∧
      (∀ j, i0 ≤ j → j ≤ i1 → crossAt aG bG aT bT j = true) := by
  obtain ⟨La, Lb, hA, hB, hlen, hbound, hpairs⟩ :=
    n_link_chunks_spec aG aT aC aPs bG bT bC bPs
  rw [hA, List.mem_append] at hp
  rcases hp with hmem | hmem
  · exact Or.inl hmem
  · right
    obtain ⟨k, hk, hgetk⟩ := List.mem_iff_getElem.mp hmem
    obtain ⟨i0, i1, hle, hlt, hpa, hpb, hcr⟩ := hpairs k hk
    rw [List.getD_eq_getElem _ _ hk, hgetk] at hpa
    refine ⟨i0, i1, hle, hlt, by rw [hpa], by rw [hpa], ?_, ?_, hcr⟩
    · intro hor
      rw [hpa]
      simp [mkCoord, hor]
    · intro hor
      rw [hpa]
      simp [mkCoord, hor]

def onesGrid : Grid := fun _ _ => 1

theorem C4_portal_endpoints_aligned_witness :
    ((⟨⟨0, 0⟩, ⟨63, 0⟩, ⟨63, 63⟩, (⟨1, 0⟩, 0)⟩ : Portal) ∈
        (n_link_chunks onesGrid .bot ⟨0, 0⟩ [] onesGrid .top ⟨1, 0⟩ []).1) ∧
    ((⟨⟨0, 0⟩, ⟨63, 0⟩, ⟨63, 63⟩, (⟨1, 0⟩, 0)⟩ : Portal) ∈ ([] : List Portal) ∨
      ∃ i0 i1, i0 ≤ i1 ∧ i1 < lineLen .bot ∧
        (⟨63, 0⟩ : Coord) = mkCoord .bot i0 ∧ (⟨63, 63⟩ : Coord) = mkCoord .bot i1 ∧
        (edgeIsHoriz .bot = true →
          (63 : Nat) = fixedIdx .bot ∧ (63 : Nat) = fixedIdx .bot ∧
          (0 : Nat) = i0 ∧ (63 : Nat) = i1) ∧
        (edgeIsHoriz .bot = false →
          (0 : Nat) = fixedIdx .bot ∧ (63 : Nat) = fixedIdx .bot ∧
          (63 : Nat) = i0 ∧ (63 : Nat) = i1) ∧
        (∀ j, i0 ≤ j → j ≤ i1 → crossAt onesGrid onesGrid .bot .top j = true)) :=
  ⟨by decide,
    C4_portal_endpoints_aligned onesGrid .bot ⟨0, 0⟩ [] onesGrid .top ⟨1, 0⟩ []
      ⟨⟨0, 0⟩, ⟨63, 0⟩, ⟨63, 63⟩, (⟨1, 0⟩, 0)⟩ (by decide)⟩

/-! ### Claim C2: the run that begins at the last edge cell is dropped -/

/-- Modelled from the spec: the number of maximal runs of consecutive
crossable positions along an edge line of length n (group consecutive
crossable positions; a non-crossable position or the end of the edge
terminates the current run). -/
def specCrossableRuns (cross : Nat → Bool) (n : Nat) : Nat :=
  ((List.range n).foldl
    (fun acc i =>
      if cross i then (if acc.2 then acc else (acc.1 + 1, true)) else (acc.1, false))
    ((0 : Nat), false)).1

/-- Boundary data on which only the very last position of the shared
edge is crossable: chunk a is passable only at the last cell of its
bottom row, chunk b only at the last cell of its top row. -/
def lastCellA : Grid := fun r c =>
  if r = FIELD_RES_R - 1 ∧ c = FIELD_RES_C - 1 then 1 else COST_IMPASSABLE

def lastCellB : Grid := fun r c =>
  if r = 0 ∧ c = FIELD_RES_C - 1 then 1 else COST_IMPASSABLE

/-- Claim C2 (failing input): on this edge there is exactly one maximal
crossable run, consisting of the last position alone, yet n_link_chunks
records no portal on either side: the opening branch fires at the last
position, but the closing branch is in an else-branch and is never
reached, so num_portals is not incremented. -/
theorem C2_last_cell_run_dropped :
    specCrossableRuns (crossAt lastCellA lastCellB .bot .top) (lineLen .bot) = 1 ∧
    (n_link_chunks lastCellA .bot ⟨0, 0⟩ [] lastCellB .top ⟨1, 0⟩ []).1.length = 0 ∧
    (n_link_chunks lastCellA .bot ⟨0, 0⟩ [] lastCellB .top ⟨1, 0⟩ []).2.length = 0 :=
  ⟨by decide, by decide, by decide⟩

/-! ### Claims C5 / C6: the links processed by n_create_portals -/

theorem sum_map_add_nat {α : Type} (l : List α) (f g : α → Nat) :
    (l.map (fun x => f x + g x)).sum = (l.map f).sum + (l.map g).sum := by
  induction l with
  | nil => rfl
  | cons x l ih =>
    simp only [List.map_cons, List.sum_cons, ih]
    omega

theorem sum_map_const_nat {α : Type} (l : List α) (a : Nat) :
    (l.map (fun _ => a)).sum = l.length * a := by
  induction l with
  | nil => simp
  | cons x l ih =>
    simp only [List.map_cons, List.sum_cons, ih, List.length_cons]
    rw [Nat.add_mul, Nat.one_mul, Nat.add_comm]

theorem sum_indicator_lt (m k : Nat) :
    ((List.range m).map (fun i => if i < k then (1 : Nat) else 0)).sum = min m k := by
  induction m with
  | zero => simp
  | succ m ih =>
    rw [List.range_succ, List.map_append, List.sum_append, ih]
    simp only [List.map_cons, List.map_nil, List.sum_cons, List.sum_nil]
    by_cases h : m < k <;> simp [h] <;> omega

theorem sum_map_mul_right (l : List Nat) (f : Nat → Nat) (w : Nat) :
    (l.map (fun r => f r * w)).sum = (l.map f).sum * w := by
  induction l with
  | nil => simp
  | cons x l ih => simp only [List.map_cons, List.sum_cons, ih, Nat.add_mul]

theorem length_linkSpecs (w h : Nat) :
    (linkSpecs w h).length = (w - 1) * h + w * (h - 1) := by
  unfold linkSpecs
  rw [List.length_flatMap]
  have hrow : ∀ r ∈ List.range h,
      (List.length ∘ fun r => (List.range w).flatMap (fun c =>
        (if r < h - 1 then [(⟨⟨r, c⟩, .bot, ⟨r + 1, c⟩, .top⟩ : LinkSpec)] else []) ++
        (if c < w - 1 then [(⟨⟨r, c⟩, .right, ⟨r, c + 1⟩, .left⟩ : LinkSpec)] else []))) r
      = (fun r => w * (if r < h - 1 then 1 else 0) + (w - 1)) r := by
    intro r _
    simp only [Function.comp]
    rw [List.length_flatMap]
    have hcell : ∀ c ∈ List.range w,
        (List.length ∘ fun c =>
          (if r < h - 1 then [(⟨⟨r, c⟩, .bot, ⟨r + 1, c⟩, .top⟩ : LinkSpec)] else []) ++
          (if c < w - 1 then [(⟨⟨r, c⟩, .right, ⟨r, c + 1⟩, .left⟩ : LinkSpec)] else [])) c
        = (fun c => (if r < h - 1 then (1 : Nat) else 0) + (if c < w - 1 then 1 else 0)) c := by
      intro c _
      simp only [Function.comp, List.length_append]
      by_cases h1 : r < h - 1 <;> by_cases h2 : c < w - 1 <;> simp [h1, h2]
    rw [List.map_congr_left hcell, sum_map_add_nat, sum_map_const_nat, sum_indicator_lt,
        List.length_range]
    have : min w (w - 1) = w - 1 := by omega
    rw [this]
  rw [List.map_congr_left hrow]
  rw [sum_map_add_nat]
  have h1 : ((List.range h).map (fun r => w * if r < h - 1 then 1 else 0)).sum
      = (h - 1) * w := by
    have hc : ∀ r ∈ List.range h,
        (fun r => w * if r < h - 1 then 1 else 0) r
        = (fun r => (if r < h - 1 then (1 : Nat) else 0) * w) r := by
      intro r _
      exact Nat.mul_comm w _
    rw [List.map_congr_left hc, sum_map_mul_right, sum_indicator_lt]
    congr 1
    omega
  rw [h1, sum_map_const_nat, List.length_range]
  rw [Nat.mul_comm (h - 1) w, Nat.mul_comm h (w - 1), Nat.add_comm]

theorem mem_linkSpecs (w h : Nat) (ls : LinkSpec) :
    ls ∈ linkSpecs w h ↔
      (∃ r c, r + 1 < h ∧ c < w ∧ ls = ⟨⟨r, c⟩, .bot, ⟨r + 1, c⟩, .top⟩) ∨
      (∃ r c, r < h ∧ c + 1 < w ∧ ls = ⟨⟨r, c⟩, .right, ⟨r, c + 1⟩, .left⟩) := by
  unfold linkSpecs
  simp only [List.mem_flatMap, List.mem_range, List.mem_append]
  constructor
  · rintro ⟨r, hr, c, hc, hx | hx⟩
    · left
      refine ⟨r, c, ?_, hc, ?_⟩
      · by_cases hb : r < h - 1
        · omega
        · rw [if_neg hb] at hx
          exact absurd hx (by simp)
      · by_cases hb : r < h - 1
        · rw [if_pos hb] at hx
          simpa using hx
        · rw [if_neg hb] at hx
          exact absurd hx (by simp)
    · right
      refine ⟨r, c, hr, ?_, ?_⟩
      · by_cases hb : c < w - 1
        · omega
        · rw [if_neg hb] at hx
          exact absurd hx (by simp)
      · by_cases hb : c < w - 1
        · rw [if_pos hb] at hx
          simpa using hx
        · rw [if_neg hb] at hx
          exact absurd hx (by simp)
  · rintro (⟨r, c, hrh, hcw, hx⟩ | ⟨r, c, hrh, hcw, hx⟩)
    · exact ⟨r, by omega, c, hcw, Or.inl (by rw [if_pos (by omega)]; simp [hx])⟩
    · exact ⟨r, hrh, c, by omega, Or.inr (by rw [if_pos (by omega)]; simp [hx])⟩

theorem nodup_linkSpecs (w h : Nat) : (linkSpecs w h).Nodup := by
  unfold linkSpecs
  rw [List.nodup_flatMap]
  constructor
  · intro r _
    rw [List.nodup_flatMap]
    constructor
    · intro c _
      by_cases h1 : r < h - 1 <;> by_cases h2 : c < w - 1 <;> simp [h1, h2]
    · have hmem : ∀ c (x : LinkSpec),
          x ∈ (if r < h - 1 then [(⟨⟨r, c⟩, .bot, ⟨r + 1, c⟩, .top⟩ : LinkSpec)] else []) ++
              (if c < w - 1 then [(⟨⟨r, c⟩, .right, ⟨r, c + 1⟩, .left⟩ : LinkSpec)] else []) →
          x.a.c = c := by
        intro c x hx
        rw [List.mem_append] at hx
        rcases hx with hx | hx
        · by_cases hb : r < h - 1
          · rw [if_pos hb] at hx
            simp only [List.mem_singleton] at hx
            rw [hx]
          · rw [if_neg hb] at hx
            exact absurd hx (by simp)
        · by_cases hb : c < w - 1
          · rw [if_pos hb] at hx
            simp only [List.mem_singleton] at hx
            rw [hx]
          · rw [if_neg hb] at hx
            exact absurd hx (by simp)
      have := List.pairwise_lt_range w
      refine this.imp ?_
      intro c c2 hlt x hx hx2
      have e1 := hmem c x hx
      have e2 := hmem c2 x hx2
      omega
  · have hmem : ∀ r (x : LinkSpec),
        x ∈ (List.range w).flatMap (fun c =>
          (if r < h - 1 then [(⟨⟨r, c⟩, .bot, ⟨r + 1, c⟩, .top⟩ : LinkSpec)] else []) ++
          (if c < w - 1 then [(⟨⟨r, c⟩, .right, ⟨r, c + 1⟩, .left⟩ : LinkSpec)] else [])) →
        x.a.r = r := by
      intro r x hx
      rw [List.mem_flatMap] at hx
      obtain ⟨c, _, hx⟩ := hx
      rw [List.mem_append] at hx
      rcases hx with hx | hx
      · by_cases hb : r < h - 1
        · rw [if_pos hb] at hx
          simp only [List.mem_singleton] at hx
          rw [hx]
        · rw [if_neg hb] at hx
          exact absurd hx (by simp)
      · by_cases hb : c < w - 1
        · rw [if_pos hb] at hx
          simp only [List.mem_singleton] at hx
          rw [hx]
        · rw [if_neg hb] at hx
          exact absurd hx (by simp)
    have := List.pairwise_lt_range h
    refine this.imp ?_
    intro r r2 hlt x hx hx2
    have e1 := hmem r x hx
    have e2 := hmem r2 x hx2
    omega

/-- Claim C5: Build processes each internal chunk adjacency exactly once
(the bottom neighbour and the right neighbour from each chunk), and the
total number of inter-chunk links processed equals
(w - 1) * h + w * (h - 1). -/
theorem C5_links_processed_once (w h : Nat) (hw : 1 ≤ w) (hh : 1 ≤ h) :
    (linkSpecs w h).length = (w - 1) * h + w * (h - 1) ∧
    (∀ r c, r + 1 < h → c < w →
      (linkSpecs w h).count (⟨⟨r, c⟩, .bot, ⟨r + 1, c⟩, .top⟩ : LinkSpec) = 1) ∧
    (∀ r c, r < h → c + 1 < w →
      (linkSpecs w h).count (⟨⟨r, c⟩, .right, ⟨r, c + 1⟩, .left⟩ : LinkSpec) = 1) := by
  refine ⟨length_linkSpecs w h, ?_, ?_⟩
  · intro r c hr hc
    exact List.count_eq_one_of_mem (nodup_linkSpecs w h)
      ((mem_linkSpecs w h _).mpr (Or.inl ⟨r, c, hr, hc, rfl⟩))
  · intro r c hr hc
    exact List.count_eq_one_of_mem (nodup_linkSpecs w h)
      ((mem_linkSpecs w h _).mpr (Or.inr ⟨r, c, hr, hc, rfl⟩))

theorem C5_links_processed_once_witness :
    ((1 ≤ 2 ∧ 1 ≤ 2) ∧ 0 + 1 < 2 ∧ 0 < 2) ∧
    ((linkSpecs 2 2).length = (2 - 1) * 2 + 2 * (2 - 1) ∧
      (linkSpecs 2 2).count (⟨⟨0, 0⟩, .bot, ⟨0 + 1, 0⟩, .top⟩ : LinkSpec) = 1) :=
  ⟨⟨⟨by decide, by decide⟩, by decide, by decide⟩,
    ⟨(C5_links_processed_once 2 2 (by decide) (by decide)).1,
      (C5_links_processed_once 2 2 (by decide) (by decide)).2.1 0 0
        (by decide) (by decide)⟩⟩

/-- Claim C6 (counterexample): the assertion formula at the end of
n_create_portals is w * (w - 1) + h * (h - 1); on a map 2 chunks wide
and 1 chunk tall only one adjacency link is processed, yet the formula
evaluates to 2, so the assertion fails. -/
theorem C6_assert_formula_counterexample :
    (linkSpecs 2 1).length = 1 ∧
    2 * (2 - 1) + 1 * (1 - 1) = 2 ∧
    (linkSpecs 2 1).length ≠ 2 * (2 - 1) + 1 * (1 - 1) :=
  ⟨by decide, by decide, by decide⟩

/-- For positive dimensions the true link count (w-1)*h + w*(h-1)
agrees with the asserted formula w*(w-1) + h*(h-1) exactly on square
maps: the difference of the two sides is the square (w - h)^2. -/
theorem assert_formula_iff_square (w h : Nat) (hw : 1 ≤ w) (hh : 1 ≤ h) :
    ((w - 1) * h + w * (h - 1) = w * (w - 1) + h * (h - 1)) ↔ w = h := by
  obtain ⟨a, rfl⟩ : ∃ a, w = a + 1 := ⟨w - 1, by omega⟩
  obtain ⟨b, rfl⟩ : ∃ b, h = b + 1 := ⟨h - 1, by omega⟩
  simp only [Nat.add_sub_cancel]
  constructor
  · intro he
    have he2 : (a : ℤ) * (b + 1) + (a + 1) * b = (a + 1) * a + (b + 1) * b := by
      exact_mod_cast he
    have h3 : ((a : ℤ) - b) ^ 2 = 0 := by nlinarith [he2]
    have h4 : (a : ℤ) - b = 0 := sq_eq_zero_iff.mp h3
    have h5 : a = b := by omega
    omega
  · intro he
    have hab : a = b := by omega
    subst hab
    ring

/-- Claim C6 (amended): for every w, h >= 1 the assertion at the end of
n_create_portals holds if and only if w = h — the number of links
counted always equals (w-1)*h + w*(h-1), and for positive dimensions
that equals the asserted formula w*(w-1) + h*(h-1) exactly when the map
is square; on every non-square map the assertion fails. -/
theorem C6_assert_holds_iff_square (w h : Nat) (hw : 1 ≤ w) (hh : 1 ≤ h) :
    ((linkSpecs w h).length = w * (w - 1) + h * (h - 1)) ↔ w = h := by
  rw [length_linkSpecs]
  exact assert_formula_iff_square w h hw hh

theorem C6_assert_holds_iff_square_witness :
    ((1 : Nat) ≤ 2) ∧
    (((linkSpecs 2 2).length = 2 * (2 - 1) + 2 * (2 - 1)) ↔ 2 = 2) :=
  ⟨by decide, C6_assert_holds_iff_square 2 2 (by decide) (by decide)⟩

/-! ### Claim C3: portal capacity -/

theorem applyLink_other (cost : Coord → Grid) (pm : PortalMap) (ls : LinkSpec)
    (rc : Coord) (h1 : ¬ rc = ls.a) (h2 : ¬ rc = ls.b) :
    applyLink cost pm ls rc = pm rc := by
  unfold applyLink
  rw [if_neg h1, if_neg h2]

theorem applyLink_length_le (cost : Coord → Grid) (pm : PortalMap) (ls : LinkSpec)
    (rc : Coord) :
    ((applyLink cost pm ls) rc).length
      ≤ (pm rc).length + (if ls.a = rc ∨ ls.b = rc then 32 else 0) := by
  obtain ⟨La, Lb, hA, hB, hlen, hbound, _⟩ :=
    n_link_chunks_spec (cost ls.a) ls.aT ls.a (pm ls.a) (cost ls.b) ls.bT ls.b (pm ls.b)
  unfold applyLink
  by_cases h1 : rc = ls.a
  · rw [if_pos h1, h1, hA, List.length_append]
    rw [if_pos (Or.inl rfl)]
    omega
  · rw [if_neg h1]
    by_cases h2 : rc = ls.b
    · rw [if_pos h2, h2, hB, List.length_append]
      rw [if_pos (Or.inr rfl)]
      omega
    · rw [if_neg h2]
      omega

theorem foldl_applyLink_length (cost : Coord → Grid) (l : List LinkSpec)
    (pm : PortalMap) (rc : Coord) :
    ((l.foldl (applyLink cost) pm) rc).length
      ≤ (pm rc).length + 32 * l.countP (fun ls => ls.a == rc || ls.b == rc) := by
  induction l generalizing pm with
  | nil => simp
  | cons ls l ih =>
    rw [List.foldl_cons, List.countP_cons]
    have h1 := ih (applyLink cost pm ls)
    have h2 := applyLink_length_le cost pm ls rc
    by_cases ht : ls.a = rc ∨ ls.b = rc
    · rw [if_pos ht] at h2
      have hb : (ls.a == rc || ls.b == rc) = true := by
        rcases ht with ht | ht <;> simp [ht]
      simp [hb]
      omega
    · rw [if_neg ht] at h2
      have hb : (ls.a == rc || ls.b == rc) = false := by
        push_neg at ht
        simp [ht.1, ht.2]
      simp [hb]
      omega

theorem sum_count_singleton_mem (cands : List LinkSpec) (x : LinkSpec)
    (hx : x ∈ cands) :
    1 ≤ (cands.map (fun y => if x = y then (1 : Nat) else 0)).sum := by
  induction cands with
  | nil => exact absurd hx (by simp)
  | cons y cands ih =>
    rw [List.map_cons, List.sum_cons]
    rcases List.mem_cons.mp hx with h | h
    · rw [if_pos h]
      omega
    · have := ih h
      omega

theorem countP_le_sum_counts (l cands : List LinkSpec) (p : LinkSpec → Bool)
    (hc : ∀ x ∈ l, p x = true → x ∈ cands) :
    l.countP p ≤ (cands.map (fun y => l.count y)).sum := by
  induction l with
  | nil =>
    rw [List.countP_nil]
    omega
  | cons x l ih =>
    have hsum : (cands.map (fun y => List.count y (x :: l))).sum
        = (cands.map (fun y => List.count y l)).sum
          + (cands.map (fun y => if x = y then (1 : Nat) else 0)).sum := by
      rw [← sum_map_add_nat]
      refine congrArg List.sum (List.map_congr_left ?_)
      intro y _
      rw [List.count_cons]
      have hbq : (x == y) = decide (x = y) := rfl
      rw [hbq]
      by_cases hxy : x = y <;> simp [hxy]
    rw [hsum]
    have hih := ih (fun a ha hp => hc a (List.mem_cons_of_mem x ha) hp)
    by_cases hp : p x = true
    · have hxmem := hc x (List.mem_cons_self x l) hp
      have := sum_count_singleton_mem cands x hxmem
      rw [List.countP_cons_of_pos _ _ hp]
      omega
    · rw [List.countP_cons_of_neg]
      · omega
      · simpa using hp

theorem count_linkSpecs_le_one (w h : Nat) (x : LinkSpec) :
    (linkSpecs w h).count x ≤ 1 := by
  by_cases hx : x ∈ linkSpecs w h
  · rw [List.count_eq_one_of_mem (nodup_linkSpecs w h) hx]
  · rw [List.count_eq_zero_of_not_mem hx]
    omega

theorem touch_count_le_four (w h : Nat) (rc : Coord) :
    (linkSpecs w h).countP (fun ls => ls.a == rc || ls.b == rc) ≤ 4 := by
  have hc : ∀ x ∈ linkSpecs w h, (fun ls => ls.a == rc || ls.b == rc) x = true →
      x ∈ [(⟨rc, .bot, ⟨rc.r + 1, rc.c⟩, .top⟩ : LinkSpec),
           ⟨rc, .right, ⟨rc.r, rc.c + 1⟩, .left⟩,
           ⟨⟨rc.r - 1, rc.c⟩, .bot, ⟨rc.r - 1 + 1, rc.c⟩, .top⟩,
           ⟨⟨rc.r, rc.c - 1⟩, .right, ⟨rc.r, rc.c - 1 + 1⟩, .left⟩] := by
    intro x hx hp
    simp only [Bool.or_eq_true, beq_iff_eq] at hp
    rcases (mem_linkSpecs w h x).mp hx with ⟨r, c, hb1, hb2, hx⟩ | ⟨r, c, hb1, hb2, hx⟩
    · subst hx
      simp only at hp
      rcases hp with hp | hp
      · subst hp
        simp
      · have hpr := congrArg Coord.r hp
        have hpc := congrArg Coord.c hp
        simp only at hpr hpc
        have hr : r = rc.r - 1 := by omega
        subst hr
        subst hpc
        have he : rc.r - 1 + 1 = rc.r := by omega
        simp [he]
    · subst hx
      simp only at hp
      rcases hp with hp | hp
      · subst hp
        simp
      · have hpr := congrArg Coord.r hp
        have hpc := congrArg Coord.c hp
        simp only at hpr hpc
        have hc2 : c = rc.c - 1 := by omega
        subst hc2
        subst hpr
        have he : rc.c - 1 + 1 = rc.c := by omega
        simp [he]
  have := countP_le_sum_counts (linkSpecs w h) _ _ hc
  refine le_trans this ?_
  simp only [List.map_cons, List.map_nil, List.sum_cons, List.sum_nil]
  have c1 := count_linkSpecs_le_one w h (⟨rc, .bot, ⟨rc.r + 1, rc.c⟩, .top⟩ : LinkSpec)
  have c2 := count_linkSpecs_le_one w h (⟨rc, .right, ⟨rc.r, rc.c + 1⟩, .left⟩ : LinkSpec)
  have c3 := count_linkSpecs_le_one w h
    (⟨⟨rc.r - 1, rc.c⟩, .bot, ⟨rc.r - 1 + 1, rc.c⟩, .top⟩ : LinkSpec)
  have c4 := count_linkSpecs_le_one w h
    (⟨⟨rc.r, rc.c - 1⟩, .right, ⟨rc.r, rc.c - 1 + 1⟩, .left⟩ : LinkSpec)
  omega

/-- Claim C3 (amended): a single shared-edge link records at most 32
portals per chunk, and a chunk takes part in at most four links, so
every chunk's num_portals after portal discovery is at most 128; the
capacity MAX_PORTALS_PER_CHUNK = 64 is not an invariant of the code. -/
theorem C3_portal_count_bounded (w h : Nat) (cost : Coord → Grid) (rc : Coord) :
    ((n_create_portals w h cost) rc).length ≤ 128 := by
  unfold n_create_portals
  have h1 := foldl_applyLink_length cost (linkSpecs w h) (fun _ => []) rc
  have h2 := touch_count_le_four w h rc
  simp only [List.length_nil, Nat.zero_add] at h1
  omega

/-! ### Closed form of the cost field for 64x64 tiles per chunk -/

theorem n_set_cost_64 (tr tc : Nat) (t : Tile) (g : Grid) (x y : Nat) :
    n_set_cost_for_tile 64 64 tr tc t g x y
      = if x = tr ∧ y = tc then (if n_tile_pathable t then 1 else COST_IMPASSABLE)
        else g x y := by
  show gridSet g (tr * 1 + 0) (tc * 1 + 0) _ x y = _
  unfold gridSet
  have e1 : tr * 1 + 0 = tr := by omega
  have e2 : tc * 1 + 0 = tc := by omega
  rw [e1, e2]

theorem n_set_cost_64_fun (tr tc : Nat) (t : Tile) (g : Grid) :
    n_set_cost_for_tile 64 64 tr tc t g
      = gridSet g tr tc (if n_tile_pathable t then 1 else COST_IMPASSABLE) := by
  funext x y
  rw [n_set_cost_64]
  unfold gridSet
  rfl

theorem foldl_gridSet_cells (v : Nat → Nat → Nat) (g : Grid) (R m x y : Nat) :
    ((List.range m).foldl (fun g c => gridSet g R c (v R c)) g) x y
      = if x = R ∧ y < m then v x y else g x y := by
  induction m generalizing g with
  | zero =>
    rw [List.range_zero]
    simp only [List.foldl_nil]
    rw [if_neg]
    rintro ⟨_, hy⟩; omega
  | succ m ih =>
    have hg : ∀ (gg : Grid), gridSet gg R m (v R m) x y
        = if x = R ∧ y = m then v R m else gg x y := fun gg => rfl
    rw [show List.range (m + 1) = List.range m ++ [m] from List.range_succ m,
        List.foldl_append, List.foldl_cons, List.foldl_nil, hg, ih]
    by_cases hnew : x = R ∧ y = m
    · rw [if_pos hnew, if_pos ⟨hnew.1, by omega⟩, hnew.1, hnew.2]
    · rw [if_neg hnew]
      by_cases hold : x = R ∧ y < m
      · rw [if_pos hold, if_pos ⟨hold.1, by omega⟩]
      · rw [if_neg hold, if_neg]
        rintro ⟨h1, h2⟩
        by_cases hy : y = m
        · exact hnew ⟨h1, hy⟩
        · exact hold ⟨h1, by omega⟩

theorem foldl_rows_closed (v : Nat → Nat → Nat) (g : Grid) (m x y : Nat) :
    ((List.range m).foldl
      (fun g r => (List.range 64).foldl (fun g c => gridSet g r c (v r c)) g) g) x y
      = if x < m ∧ y < 64 then v x y else g x y := by
  induction m generalizing g with
  | zero =>
    rw [List.range_zero]
    simp only [List.foldl_nil]
    rw [if_neg]
    rintro ⟨hx, _⟩; omega
  | succ m ih =>
    rw [show List.range (m + 1) = List.range m ++ [m] from List.range_succ m,
        List.foldl_append, List.foldl_cons, List.foldl_nil]
    rw [foldl_gridSet_cells, ih]
    by_cases hnew : x = m ∧ y < 64
    · rw [if_pos hnew, if_pos ⟨by omega, hnew.2⟩]
    · rw [if_neg hnew]
      by_cases hold : x < m ∧ y < 64
      · rw [if_pos hold, if_pos ⟨by omega, hold.2⟩]
      · rw [if_neg hold, if_neg]
        rintro ⟨h1, h2⟩
        by_cases hx : x = m
        · exact hnew ⟨hx, h2⟩
        · exact hold ⟨by omega, h2⟩

/-- With 64x64 tiles per chunk every tile covers exactly one cost cell,
and the chunk's cost field reduces to a direct per-tile lookup. -/
theorem buildChunkCost_64 (tl : Nat → Tile) :
    buildChunkCost 64 64 tl = fun x y =>
      if x < 64 ∧ y < 64
      then (if n_tile_pathable (tl (x * 64 + y)) then 1 else COST_IMPASSABLE)
      else 0 := by
  funext x y
  unfold buildChunkCost
  have hstep : ∀ (g : Grid), ∀ tr ∈ List.range 64,
      (List.range 64).foldl
        (fun g tc => n_set_cost_for_tile 64 64 tr tc (tl (tr * 64 + tc)) g) g
      = (List.range 64).foldl
        (fun g tc => gridSet g tr tc
          (if n_tile_pathable (tl (tr * 64 + tc)) then 1 else COST_IMPASSABLE)) g := by
    intro g tr _
    refine List.foldl_ext _ _ g ?_
    intro g2 tc _
    exact n_set_cost_64_fun tr tc (tl (tr * 64 + tc)) g2
  rw [List.foldl_ext _ _ _ hstep]
  rw [foldl_rows_closed
    (fun r c => if n_tile_pathable (tl (r * 64 + c)) then 1 else COST_IMPASSABLE)]

/-! ### The cost fields handed to portal discovery by N_BuildForMapData -/

/-- The per-chunk cost fields built by the first phase of
N_BuildForMapData from the per-chunk tile arrays (chunk index row-major
`chunk_r * w + chunk_c` as in the source). -/
def chunkCosts (w h chunk_w chunk_h : Nat) (tiles : Nat → Nat → Tile) :
    Coord → Grid :=
  fun rc =>
    if rc.r < h ∧ rc.c < w
    then buildChunkCost chunk_w chunk_h (tiles (rc.r * w + rc.c))
    else fun _ _ => 0

/-! ### Claim C3 counterexample: tile data driving num_portals to 96 -/

def cxTile (p : Bool) : Tile := ⟨0, 0, p⟩

/-- Tile data for a map 2 chunks wide and 3 chunks tall with 64x64 tiles
per chunk.  Chunk (1,0) is fully pathable; its three neighbours expose
alternating pathable cells along the shared boundaries, producing 32
portals on each of the three shared edges of chunk (1,0). -/
def cxTiles : Nat → Nat → Tile := fun k j =>
  if k = 2 then cxTile true
  else if k = 0 ∨ k = 4 then cxTile (j % 2 == 0)
  else if k = 3 then cxTile ((j / 64) % 2 == 0)
  else cxTile false

/-- The closed form of the cost fields produced from cxTiles. -/
def cxCost : Coord → Grid := fun rc =>
  if rc.r < 3 ∧ rc.c < 2
  then (fun x y =>
    if x < 64 ∧ y < 64
    then (if n_tile_pathable (cxTiles (rc.r * 2 + rc.c) (x * 64 + y)) then 1
          else COST_IMPASSABLE)
    else 0)
  else fun _ _ => 0

theorem chunkCosts_cx : chunkCosts 2 3 64 64 cxTiles = cxCost := by
  funext rc
  unfold chunkCosts cxCost
  by_cases hb : rc.r < 3 ∧ rc.c < 2
  · rw [if_pos hb, if_pos hb, buildChunkCost_64]
  · rw [if_neg hb, if_neg hb]

set_option maxRecDepth 10000 in
/-- Claim C3 (counterexample): on this 2-wide by 3-tall map the interior
chunk (1,0) has three linked edges with 32 crossable runs each, so after
portal discovery its num_portals is 96, exceeding
MAX_PORTALS_PER_CHUNK = 64. -/
theorem C3_capacity_counterexample :
    ((n_create_portals 2 3 (chunkCosts 2 3 64 64 cxTiles)) ⟨1, 0⟩).length = 96 ∧
    ¬ (((n_create_portals 2 3 (chunkCosts 2 3 64 64 cxTiles)) ⟨1, 0⟩).length
        ≤ MAX_PORTALS_PER_CHUNK) := by
  rw [chunkCosts_cx]
  have h96 : ((n_create_portals 2 3 cxCost) ⟨1, 0⟩).length = 96 := by decide
  refine ⟨h96, ?_⟩
  rw [h96]
  decide

/-! ### Claim C7: cross-chunk counterpart pairing -/

/-- Canonical shape of every link processed by n_create_portals: a
bottom link to the chunk below, or a right link to the chunk to the
right, both endpoints in bounds. -/
def ShapeOK (w h : Nat) (ls : LinkSpec) : Prop :=
  (ls.aT = .bot ∧ ls.bT = .top ∧ ls.b = ⟨ls.a.r + 1, ls.a.c⟩ ∧
    ls.a.r + 1 < h ∧ ls.a.c < w) ∨
  (ls.aT = .right ∧ ls.bT = .left ∧ ls.b = ⟨ls.a.r, ls.a.c + 1⟩ ∧
    ls.a.r < h ∧ ls.a.c + 1 < w)

theorem shapeOK_of_mem (w h : Nat) (ls : LinkSpec) (hm : ls ∈ linkSpecs w h) :
    ShapeOK w h ls := by
  rcases (mem_linkSpecs w h ls).mp hm with ⟨r, c, h1, h2, he⟩ | ⟨r, c, h1, h2, he⟩
  · left
    subst he
    exact ⟨rfl, rfl, rfl, h1, h2⟩
  · right
    subst he
    exact ⟨rfl, rfl, rfl, h1, h2⟩

/-- The direction of a portal's counterpart chunk determines which edge
of its own chunk the portal lies on: below means the bottom boundary
row, above the top row, right the last column, left column 0.  A chunk
in the first row can have no portal whose counterpart lies above it
(there is no Nat with r + 1 = 0), and likewise for the other world
boundaries, so no portals exist on outward-facing edges. -/
def edgeShape (rc : Coord) (p : Portal) : Prop :=
  (p.connected.1 = ⟨rc.r + 1, rc.c⟩ ∧
    p.ep0.r = FIELD_RES_R - 1 ∧ p.ep1.r = FIELD_RES_R - 1) ∨
  (p.connected.1.r + 1 = rc.r ∧ p.connected.1.c = rc.c ∧
    p.ep0.r = 0 ∧ p.ep1.r = 0) ∨
  (p.connected.1 = ⟨rc.r, rc.c + 1⟩ ∧
    p.ep0.c = FIELD_RES_C - 1 ∧ p.ep1.c = FIELD_RES_C - 1) ∨
  (p.connected.1.c + 1 = rc.c ∧ p.connected.1.r = rc.r ∧
    p.ep0.c = 0 ∧ p.ep1.c = 0)

/-- Portal i of chunk rc has exactly one counterpart: a valid portal of
the in-bounds adjacent chunk across its edge whose connected reference
points back to portal i of rc. -/
def portalLinked (w h : Nat) (pm : PortalMap) (rc : Coord) (i : Nat) (p : Portal) :
    Prop :=
  p.chunk = rc ∧ p.connected.1.r < h ∧ p.connected.1.c < w ∧
  p.connected.2 < (pm p.connected.1).length ∧
  ((pm p.connected.1).getD p.connected.2 default).connected = (rc, i) ∧
  edgeShape rc p

def pmProp (w h : Nat) (pm : PortalMap) : Prop :=
  ∀ rc : Coord, ∀ i, i < (pm rc).length →
    portalLinked w h pm rc i ((pm rc).getD i default)

theorem pmProp_applyLink (w h : Nat) (cost : Coord → Grid) (pm : PortalMap)
    (ls : LinkSpec) (hls : ls ∈ linkSpecs w h) (hpm : pmProp w h pm) :
    pmProp w h (applyLink cost pm ls) := by
  obtain ⟨La, Lb, hA, hB, hlen, hb32, hpairs⟩ :=
    n_link_chunks_spec (cost ls.a) ls.aT ls.a (pm ls.a) (cost ls.b) ls.bT ls.b (pm ls.b)
  have hshape := shapeOK_of_mem w h ls hls
  have hab : ls.a ≠ ls.b := by
    rcases hshape with ⟨_, _, hb, _, _⟩ | ⟨_, _, hb, _, _⟩ <;>
    · intro he
      rw [hb] at he
      have h2 := congrArg Coord.r he
      have h3 := congrArg Coord.c he
      simp only at h2 h3
      omega
  have hbInB : ls.b.r < h ∧ ls.b.c < w := by
    rcases hshape with ⟨_, _, hb, hbd1, hbd2⟩ | ⟨_, _, hb, hbd1, hbd2⟩ <;>
    · have h2 := congrArg Coord.r hb
      have h3 := congrArg Coord.c hb
      simp only at h2 h3
      omega
  have haInB : ls.a.r < h ∧ ls.a.c < w := by
    rcases hshape with ⟨_, _, _, hbd1, hbd2⟩ | ⟨_, _, _, hbd1, hbd2⟩ <;>
      exact ⟨by omega, by omega⟩
  have hApp : ∀ rc : Coord, applyLink cost pm ls rc
      = pm rc ++ (if rc = ls.a then La else if rc = ls.b then Lb else []) := by
    intro rc
    unfold applyLink
    by_cases h1 : rc = ls.a
    · rw [if_pos h1, if_pos h1, h1, hA]
    · rw [if_neg h1, if_neg h1]
      by_cases h2 : rc = ls.b
      · rw [if_pos h2, if_pos h2, h2, hB]
      · rw [if_neg h2, if_neg h2, List.append_nil]
  have hLen : ∀ rc : Coord, (pm rc).length ≤ (applyLink cost pm ls rc).length := by
    intro rc
    rw [hApp rc, List.length_append]
    omega
  have hOld : ∀ rc i, i < (pm rc).length →
      (applyLink cost pm ls rc).getD i default = (pm rc).getD i default := by
    intro rc i hi
    rw [hApp rc, List.getD_append _ _ _ _ hi]
  have hNewA : ∀ k, k < La.length →
      (applyLink cost pm ls ls.a).getD ((pm ls.a).length + k) default
        = La.getD k default := by
    intro k hk
    rw [hApp ls.a, if_pos rfl, List.getD_append_right _ _ _ _ (by omega)]
    congr 1
    omega
  have hNewB : ∀ k, k < Lb.length →
      (applyLink cost pm ls ls.b).getD ((pm ls.b).length + k) default
        = Lb.getD k default := by
    intro k hk
    rw [hApp ls.b, if_neg (fun he => hab he.symm), if_pos rfl,
        List.getD_append_right _ _ _ _ (by omega)]
    congr 1
    omega
  have hLenA : (applyLink cost pm ls ls.a).length = (pm ls.a).length + La.length := by
    rw [hApp ls.a, if_pos rfl, List.length_append]
  have hLenB : (applyLink cost pm ls ls.b).length = (pm ls.b).length + Lb.length := by
    rw [hApp ls.b, if_neg (fun he => hab he.symm), if_pos rfl, List.length_append]
  intro rc i hi
  by_cases hiold : i < (pm rc).length
  · rw [hOld rc i hiold]
    obtain ⟨hchunk, hr, hc, hidx, hback, hsh⟩ := hpm rc i hiold
    refine ⟨hchunk, hr, hc, lt_of_lt_of_le hidx (hLen _), ?_, hsh⟩
    rw [hOld _ _ hidx]
    exact hback
  · -- a freshly appended portal: rc is one of the two linked chunks
    rw [hApp rc, List.length_append] at hi
    by_cases h1 : rc = ls.a
    · subst h1
      rw [if_pos rfl] at hi
      obtain ⟨k, hkeq⟩ : ∃ k, i = (pm ls.a).length + k :=
        ⟨i - (pm ls.a).length, by omega⟩
      subst hkeq
      have hkLa : k < La.length := by omega
      have hkLb : k < Lb.length := by omega
      obtain ⟨i0, i1, hle, hlt, hpa, hpb, hcr⟩ := hpairs k hkLa
      rw [hNewA k hkLa, hpa]
      refine ⟨rfl, hbInB.1, hbInB.2, ?_, ?_, ?_⟩
      · show (pm ls.b).length + k < (applyLink cost pm ls ls.b).length
        rw [hLenB]
        omega
      · show ((applyLink cost pm ls ls.b).getD ((pm ls.b).length + k) default).connected
            = (ls.a, (pm ls.a).length + k)
        rw [hNewB k hkLb, hpb]
      · rcases hshape with ⟨hat, hbt, hb, hbd1, hbd2⟩ | ⟨hat, hbt, hb, hbd1, hbd2⟩
        · left
          rw [hat]
          exact ⟨hb, rfl, rfl⟩
        · right; right; left
          rw [hat]
          exact ⟨hb, rfl, rfl⟩
    · rw [if_neg h1] at hi
      by_cases h2 : rc = ls.b
      · subst h2
        rw [if_pos rfl] at hi
        obtain ⟨k, hkeq⟩ : ∃ k, i = (pm ls.b).length + k :=
          ⟨i - (pm ls.b).length, by omega⟩
        subst hkeq
        have hkLb : k < Lb.length := by omega
        have hkLa : k < La.length := by omega
        obtain ⟨i0, i1, hle, hlt, hpa, hpb, hcr⟩ := hpairs k hkLa
        rw [hNewB k hkLb, hpb]
        refine ⟨rfl, haInB.1, haInB.2, ?_, ?_, ?_⟩
        · show (pm ls.a).length + k < (applyLink cost pm ls ls.a).length
          rw [hLenA]
          omega
        · show ((applyLink cost pm ls ls.a).getD ((pm ls.a).length + k) default).connected
              = (ls.b, (pm ls.b).length + k)
          rw [hNewA k hkLa, hpa]
        · rcases hshape with ⟨hat, hbt, hb, hbd1, hbd2⟩ | ⟨hat, hbt, hb, hbd1, hbd2⟩
          · right; left
            rw [hbt]
            have hbr := congrArg Coord.r hb
            have hbc := congrArg Coord.c hb
            simp only at hbr hbc
            refine ⟨?_, ?_, rfl, rfl⟩
            · show ls.a.r + 1 = ls.b.r
              omega
            · show ls.a.c = ls.b.c
              omega
          · right; right; right
            rw [hbt]
            have hbr := congrArg Coord.r hb
            have hbc := congrArg Coord.c hb
            simp only at hbr hbc
            refine ⟨?_, ?_, rfl, rfl⟩
            · show ls.a.c + 1 = ls.b.c
              omega
            · show ls.a.r = ls.b.r
              omega
      · exact absurd hi (by rw [if_neg h2]; simp; omega)

theorem pmProp_foldl (w h : Nat) (cost : Coord → Grid) (l : List LinkSpec)
    (hl : ∀ ls ∈ l, ls ∈ linkSpecs w h) (pm : PortalMap) (hpm : pmProp w h pm) :
    pmProp w h (l.foldl (applyLink cost) pm) := by
  induction l generalizing pm with
  | nil => exact hpm
  | cons ls l ih =>
    rw [List.foldl_cons]
    exact ih (fun x hx => hl x (List.mem_cons_of_mem ls hx)) _
      (pmProp_applyLink w h cost pm ls (hl ls (List.mem_cons_self ls l)) hpm)

theorem pmProp_empty (w h : Nat) : pmProp w h (fun _ => []) := by
  intro rc i hi
  exact absurd hi (by simp)

/-- Claim C7: after portal discovery every recorded portal p of chunk rc
has exactly one cross-chunk counterpart: p.connected refers to a
recorded portal of the in-bounds chunk adjacent to rc across p's edge,
that counterpart's connected reference points back to p, and the edge p
lies on matches the counterpart's direction — in particular no portal of
a chunk in the first/last row or column lies on an outward-facing edge,
since its counterpart would have to be out of bounds. -/
theorem C7_portal_counterparts (w h : Nat) (cost : Coord → Grid) (rc : Coord)
    (i : Nat) (hi : i < ((n_create_portals w h cost) rc).length) :
    portalLinked w h (n_create_portals w h cost) rc i
      (((n_create_portals w h cost) rc).getD i default) :=
  (pmProp_foldl w h cost (linkSpecs w h) (fun _ hx => hx) (fun _ => [])
    (pmProp_empty w h)) rc i hi

theorem C7_portal_counterparts_witness :
    (0 < ((n_create_portals 1 2 (fun _ => onesGrid)) ⟨0, 0⟩).length) ∧
    portalLinked 1 2 (n_create_portals 1 2 (fun _ => onesGrid)) ⟨0, 0⟩ 0
      (((n_create_portals 1 2 (fun _ => onesGrid)) ⟨0, 0⟩).getD 0 default) :=
  ⟨by decide, C7_portal_counterparts 1 2 (fun _ => onesGrid) ⟨0, 0⟩ 0 (by decide)⟩

/-! ### Claim C8: the intra-chunk portal linker -/

/-- The midpoint cell of a portal (componentwise integer average of its
two endpoints; all coordinates reached here are nonnegative, so C
truncating division coincides with Nat division). -/
def midpoint (p : Portal) : Coord :=
  ⟨(p.ep0.r + p.ep1.r) / 2, (p.ep0.c + p.ep1.c) / 2⟩

/-- nav.c n_link_chunk_portals: for every ordered pair of distinct
portals of one chunk, run the grid pathfinder (the external black-box
collaborator, supplied as a parameter) on the chunk's cost field between
the two portals' midpoints; when a path is reported an edge is appended
to the first portal's edge list (num_neighbours incremented), otherwise
nothing happens.  The result lists, for each portal index i, its edge
list as (target portal index, returned cost) pairs in loop order. -/
def n_link_chunk_portals {α : Type} (astar : Coord → Coord → Grid → Option α)
    (g : Grid) (ports : List Portal) : List (List (Nat × α)) :=
  (List.range ports.length).map (fun i =>
    (List.range ports.length).foldl (fun acc j =>
      if i = j then acc
      else
        match astar (midpoint (ports.getD i default))
                    (midpoint (ports.getD j default)) g with
        | some cost => acc ++ [(j, cost)]
        | none => acc) [])

theorem foldl_opt_append {α : Type} (l : List Nat) (f : Nat → Option (Nat × α))
    (acc : List (Nat × α)) :
    l.foldl (fun acc j =>
        match f j with
        | some e => acc ++ [e]
        | none => acc) acc
      = acc ++ l.filterMap f := by
  induction l generalizing acc with
  | nil => simp
  | cons j l ih =>
    rw [List.foldl_cons, List.filterMap_cons]
    cases hfj : f j with
    | none => rw [ih]
    | some e =>
      rw [ih, List.append_assoc, List.singleton_append]

/-- Claim C8: the linker invokes the pathfinder on the chunk's cost grid
between the midpoint cells of every ordered pair of distinct portals; a
directed edge with the returned cost is appended exactly when a path is
reported (no-path adds no edge), and self-pairs are skipped. -/
theorem C8_linker_edges_characterization {α : Type}
    (astar : Coord → Coord → Grid → Option α) (g : Grid) (ports : List Portal) :
    n_link_chunk_portals astar g ports
      = (List.range ports.length).map (fun i =>
          (List.range ports.length).filterMap (fun j =>
            if i = j then none
            else (astar (midpoint (ports.getD i default))
                        (midpoint (ports.getD j default)) g).map
                  (fun cost => (j, cost)))) := by
  unfold n_link_chunk_portals
  refine List.map_congr_left ?_
  intro i _
  have hstep : ∀ (acc : List (Nat × α)), ∀ j ∈ List.range ports.length,
      (if i = j then acc
       else
        match astar (midpoint (ports.getD i default))
                    (midpoint (ports.getD j default)) g with
        | some cost => acc ++ [(j, cost)]
        | none => acc)
      = match (if i = j then none
               else (astar (midpoint (ports.getD i default))
                           (midpoint (ports.getD j default)) g).map
                     (fun cost => (j, cost))) with
        | some e => acc ++ [e]
        | none => acc := by
    intro acc j _
    by_cases hij : i = j
    · rw [if_pos hij, if_pos hij]
    · rw [if_neg hij, if_neg hij]
      cases astar (midpoint (ports.getD i default))
                  (midpoint (ports.getD j default)) g with
      | none => rfl
      | some cost => rfl
  rw [List.foldl_ext _ _ _ hstep, foldl_opt_append, List.nil_append]

/-! ### Claim C9: Build is deterministic -/

/-- The structurally relevant result of N_BuildForMapData: map
dimensions, per-chunk cost fields, per-chunk portal arrays and
per-portal intra-chunk edge lists. -/
structure NavData (α : Type) where
  width : Nat
  height : Nat
  cost : Coord → Grid
  portals : PortalMap
  edges : Coord → List (List (Nat × α))

/-- nav.c N_BuildForMapData: rasterize every chunk's tiles into its cost
field, then create the portals over every chunk adjacency, then link the
portals of each chunk.  The grid pathfinder is the external collaborator
passed as a parameter. -/
def N_BuildForMapData {α : Type} (w h chunk_w chunk_h : Nat)
    (tiles : Nat → Nat → Tile) (astar : Coord → Coord → Grid → Option α) :
    NavData α :=
  let cost := chunkCosts w h chunk_w chunk_h tiles
  let pm := n_create_portals w h cost
  { width := w, height := h, cost := cost, portals := pm,
    edges := fun rc => n_link_chunk_portals astar (cost rc) (pm rc) }

theorem tile_idx_lt (tr tc cw ch : Nat) (h1 : tr < ch) (h2 : tc < cw) :
    tr * cw + tc < ch * cw := by
  calc tr * cw + tc < tr * cw + cw := by omega
    _ = (tr + 1) * cw := by rw [Nat.add_mul, Nat.one_mul]
    _ ≤ ch * cw := Nat.mul_le_mul_right cw h1

theorem chunk_idx_lt (r c w h : Nat) (h1 : r < h) (h2 : c < w) :
    r * w + c < w * h := by
  calc r * w + c < r * w + w := by omega
    _ = (r + 1) * w := by rw [Nat.add_mul, Nat.one_mul]
    _ ≤ h * w := Nat.mul_le_mul_right w h1
    _ = w * h := Nat.mul_comm h w

theorem chunkCosts_congr (w h cw ch : Nat) (tiles1 tiles2 : Nat → Nat → Tile)
    (ht : ∀ k j, k < w * h → j < ch * cw → tiles1 k j = tiles2 k j) :
    chunkCosts w h cw ch tiles1 = chunkCosts w h cw ch tiles2 := by
  funext rc
  unfold chunkCosts
  by_cases hb : rc.r < h ∧ rc.c < w
  · rw [if_pos hb, if_pos hb]
    have hidx : rc.r * w + rc.c < w * h := chunk_idx_lt rc.r rc.c w h hb.1 hb.2
    unfold buildChunkCost
    refine List.foldl_ext _ _ _ ?_
    intro g tr htr
    refine List.foldl_ext _ _ _ ?_
    intro g2 tc htc
    rw [ht (rc.r * w + rc.c) (tr * cw + tc) hidx
      (tile_idx_lt tr tc cw ch (List.mem_range.mp htr) (List.mem_range.mp htc))]
  · rw [if_neg hb, if_neg hb]

/-- Claim C9: Build is deterministic — it is a pure function of its
actual input, the in-range tile data (chunk indices below w*h, tile
indices below chunk_h*chunk_w) and the supplied pathfinder: two runs on
inputs that agree there produce structurally identical cost grids,
portal arrays and edge lists. -/
theorem C9_build_deterministic {α : Type} (w h cw ch : Nat)
    (tiles1 tiles2 : Nat → Nat → Tile) (astar : Coord → Coord → Grid → Option α)
    (ht : ∀ k j, k < w * h → j < ch * cw → tiles1 k j = tiles2 k j) :
    N_BuildForMapData w h cw ch tiles1 astar
      = N_BuildForMapData w h cw ch tiles2 astar := by
  unfold N_BuildForMapData
  rw [chunkCosts_congr w h cw ch tiles1 tiles2 ht]

def wTiles1 : Nat → Nat → Tile := fun _ _ => ⟨0, 0, true⟩

def wTiles2 : Nat → Nat → Tile := fun k j =>
  if k < 1 ∧ j < 1 then ⟨0, 0, true⟩ else ⟨0, 0, false⟩

def noPath : Coord → Coord → Grid → Option Nat := fun _ _ _ => none

theorem C9_build_deterministic_witness :
    (∀ k j, k < 1 * 1 → j < 1 * 1 → wTiles1 k j = wTiles2 k j) ∧
    N_BuildForMapData 1 1 1 1 wTiles1 noPath
      = N_BuildForMapData 1 1 1 1 wTiles2 noPath :=
  ⟨fun k j hk hj => by
      have hk0 : k = 0 := by omega
      have hj0 : j = 0 := by omega
      subst hk0
      subst hj0
      rfl,
    C9_build_deterministic 1 1 1 1 wTiles1 wTiles2 noPath
      (fun k j hk hj => by
        have hk0 : k = 0 := by omega
        have hj0 : j = 0 := by omega
        subst hk0
        subst hj0
        rfl)⟩

/-! ### Claim C10: the debug pathable overlay -/

inductive OvColor where
  | red
  | green
  | yellow
  | blue
deriving DecidableEq

/-- Overlay quads are identified by their cost cell and colour; the
corner positions are float arithmetic (epsilon-shrunk rectangles) and
carry no information relevant to the claim, so they are not modelled. -/
abbrev OvQuad : Type := Coord × OvColor

/-- nav.c n_render_portals: for every portal of the chunk, one yellow
quad per cell of the portal's span (rows from the smaller to the larger
endpoint row, columns likewise), emitted in loop order and submitted as
one batch. -/
def n_render_portals (ports : List Portal) : List OvQuad :=
  ports.foldl (fun acc p =>
    (List.range (max p.ep0.r p.ep1.r + 1 - min p.ep0.r p.ep1.r)).foldl (fun acc dr =>
      (List.range (max p.ep0.c p.ep1.c + 1 - min p.ep0.c p.ep1.c)).foldl (fun acc dc =>
        acc ++ [((⟨min p.ep0.r p.ep1.r + dr, min p.ep0.c p.ep1.c + dc⟩,
                 OvColor.yellow) : OvQuad)]) acc) acc) []

/-- nav.c N_RenderPathableChunk: first n_render_portals submits the
portal batch, then one quad per cost cell is emitted, red when the cell
is impassable and green otherwise, and submitted as a second batch.  The
result is the full emission sequence in submission order. -/
def N_RenderPathableChunk (g : Grid) (ports : List Portal) : List OvQuad :=
  n_render_portals ports ++
  (List.range FIELD_RES_R).foldl (fun acc r =>
    (List.range FIELD_RES_C).foldl (fun acc c =>
      acc ++ [((⟨r, c⟩,
               if g r c = COST_IMPASSABLE then OvColor.red else OvColor.green) : OvQuad)]) acc) []

/-- The span quads of one portal as a comprehension. -/
def spanQuads (p : Portal) : List OvQuad :=
  (List.range (max p.ep0.r p.ep1.r + 1 - min p.ep0.r p.ep1.r)).flatMap (fun dr =>
    (List.range (max p.ep0.c p.ep1.c + 1 - min p.ep0.c p.ep1.c)).map (fun dc =>
      (⟨min p.ep0.r p.ep1.r + dr, min p.ep0.c p.ep1.c + dc⟩, OvColor.yellow)))

/-- The per-cell quads as a comprehension. -/
def cellQuads (g : Grid) : List OvQuad :=
  (List.range FIELD_RES_R).flatMap (fun r =>
    (List.range FIELD_RES_C).map (fun c =>
      (⟨r, c⟩, if g r c = COST_IMPASSABLE then OvColor.red else OvColor.green)))

theorem foldl_append_eq_flatMap {α β : Type} (l : List α) (f : α → List β)
    (acc : List β) :
    l.foldl (fun acc x => acc ++ f x) acc = acc ++ l.flatMap f := by
  induction l generalizing acc with
  | nil => simp
  | cons x l ih => rw [List.foldl_cons, ih, List.flatMap_cons, List.append_assoc]

theorem foldl_append_singleton_eq_map {α β : Type} (l : List α) (f : α → β)
    (acc : List β) :
    l.foldl (fun acc x => acc ++ [f x]) acc = acc ++ l.map f := by
  induction l generalizing acc with
  | nil => simp
  | cons x l ih =>
    rw [List.foldl_cons, ih, List.map_cons, List.append_assoc, List.singleton_append]

theorem n_render_portals_eq (ports : List Portal) :
    n_render_portals ports = ports.flatMap spanQuads := by
  unfold n_render_portals
  have hstep : ∀ (acc : List OvQuad), ∀ p ∈ ports,
      (List.range (max p.ep0.r p.ep1.r + 1 - min p.ep0.r p.ep1.r)).foldl (fun acc dr =>
        (List.range (max p.ep0.c p.ep1.c + 1 - min p.ep0.c p.ep1.c)).foldl (fun acc dc =>
          acc ++ [((⟨min p.ep0.r p.ep1.r + dr, min p.ep0.c p.ep1.c + dc⟩,
                   OvColor.yellow) : OvQuad)]) acc) acc
      = acc ++ spanQuads p := by
    intro acc p _
    unfold spanQuads
    have hinner : ∀ (acc2 : List OvQuad), ∀ dr ∈
        List.range (max p.ep0.r p.ep1.r + 1 - min p.ep0.r p.ep1.r),
        (List.range (max p.ep0.c p.ep1.c + 1 - min p.ep0.c p.ep1.c)).foldl (fun acc dc =>
          acc ++ [((⟨min p.ep0.r p.ep1.r + dr, min p.ep0.c p.ep1.c + dc⟩,
                   OvColor.yellow) : OvQuad)]) acc2
        = acc2 ++ (List.range (max p.ep0.c p.ep1.c + 1 - min p.ep0.c p.ep1.c)).map
            (fun dc => ((⟨min p.ep0.r p.ep1.r + dr, min p.ep0.c p.ep1.c + dc⟩,
                        OvColor.yellow) : OvQuad)) := by
      intro acc2 dr _
      rw [foldl_append_singleton_eq_map]
    rw [List.foldl_ext _ _ acc hinner, foldl_append_eq_flatMap]
  rw [List.foldl_ext _ _ [] hstep, foldl_append_eq_flatMap, List.nil_append]

theorem cell_loop_eq (g : Grid) :
    (List.range FIELD_RES_R).foldl (fun acc r =>
      (List.range FIELD_RES_C).foldl (fun acc c =>
        acc ++ [((⟨r, c⟩,
                 if g r c = COST_IMPASSABLE then OvColor.red else OvColor.green) : OvQuad)]) acc) []
      = cellQuads g := by
  unfold cellQuads
  have hstep : ∀ (acc : List OvQuad), ∀ r ∈ List.range FIELD_RES_R,
      (List.range FIELD_RES_C).foldl (fun acc c =>
        acc ++ [((⟨r, c⟩,
                 if g r c = COST_IMPASSABLE then OvColor.red else OvColor.green) : OvQuad)]) acc
      = acc ++ (List.range FIELD_RES_C).map
          (fun c => ((⟨r, c⟩,
            if g r c = COST_IMPASSABLE then OvColor.red else OvColor.green) : OvQuad)) := by
    intro acc r _
    rw [foldl_append_singleton_eq_map]
  rw [List.foldl_ext _ _ [] hstep, foldl_append_eq_flatMap, List.nil_append]

/-- Claim C10 (amended): the overlay emits, for each chunk, one quad per
cost cell — exactly FIELD_RES_R * FIELD_RES_C of them, red when the cell
equals COST_IMPASSABLE and green otherwise — plus one yellow quad per
(portal, cell of its span) pair; the yellow portal batch is submitted
before (not after) the per-cell batch. -/
theorem C10_overlay_order_and_colors (g : Grid) (ports : List Portal) :
    N_RenderPathableChunk g ports = ports.flatMap spanQuads ++ cellQuads g ∧
    (cellQuads g).length = FIELD_RES_R * FIELD_RES_C ∧
    cellQuads g = (List.range FIELD_RES_R).flatMap (fun r =>
      (List.range FIELD_RES_C).map (fun c =>
        (⟨r, c⟩, if g r c = COST_IMPASSABLE then OvColor.red else OvColor.green))) := by
  refine ⟨?_, ?_, rfl⟩
  · unfold N_RenderPathableChunk
    rw [n_render_portals_eq, cell_loop_eq]
  · unfold cellQuads
    rw [List.length_flatMap]
    have hc : ∀ r ∈ List.range FIELD_RES_R,
        (List.length ∘ fun r => (List.range FIELD_RES_C).map
          (fun c => ((⟨r, c⟩, if g r c = COST_IMPASSABLE then OvColor.red
                     else OvColor.green) : OvQuad))) r
        = (fun _ => FIELD_RES_C) r := by
      intro r _
      simp only [Function.comp, List.length_map, List.length_range]
    rw [List.map_congr_left hc, sum_map_const_nat, List.length_range]

/-- Boundary portals used for the C10 counterexample: a top-edge portal
spanning cells (0,0)..(0,3) and a left-edge portal spanning
(0,0)..(2,0); cell (0,0) lies in both spans. -/
def cxPortalTop : Portal := ⟨⟨0, 0⟩, ⟨0, 0⟩, ⟨0, 3⟩, (⟨0, 0⟩, 0)⟩

def cxPortalLeft : Portal := ⟨⟨0, 0⟩, ⟨0, 0⟩, ⟨2, 0⟩, (⟨0, 0⟩, 0)⟩

/-- Follows the claim's words: the per-cell quads first, then one yellow
quad per cell belonging to any portal's span. -/
def specRenderPathable (g : Grid) (ports : List Portal) : List OvQuad :=
  cellQuads g ++
  (List.range FIELD_RES_R).flatMap (fun r =>
    (List.range FIELD_RES_C).flatMap (fun c =>
      if ports.any (fun p =>
          decide (min p.ep0.r p.ep1.r ≤ r ∧ r ≤ max p.ep0.r p.ep1.r ∧
                  min p.ep0.c p.ep1.c ≤ c ∧ c ≤ max p.ep0.c p.ep1.c))
      then [(⟨r, c⟩, OvColor.yellow)] else []))

/-- Claim C10 (counterexample): on a fully passable chunk with a
top-edge portal and a left-edge portal sharing the corner cell, the
emission differs from the claim's description — the first emitted quad
is a yellow portal quad, not a cost-cell quad, so the portal quads are
emitted before, not after, the per-cell quads; moreover the corner cell
(0,0) receives one yellow quad per portal, i.e. two, not one. -/
theorem C10_overlay_counterexample :
    N_RenderPathableChunk onesGrid [cxPortalTop, cxPortalLeft]
      ≠ specRenderPathable onesGrid [cxPortalTop, cxPortalLeft] ∧
    (n_render_portals [cxPortalTop, cxPortalLeft]).count
      ((⟨0, 0⟩, OvColor.yellow) : OvQuad) = 2 :=
  ⟨by decide, by decide⟩

end Nav
